import Mathlib

/-!
Verification development for the gke-upgrade-tool repository
(src/gke_upgrade_tool/main.py).

The tool edits a YAML configuration (a string-keyed mapping) describing a
GKE cluster: a control-plane version field, and per pool-group label an
active flag plus two slot version fields.  The embedding below models the
YAML document as an ordered association list whose values are either a
string scalar or the Python value None (modelled as Option String, where
none stands for Python None).  All string operations are modelled over
List Char, matching Python string semantics for the ASCII inputs the tool
works with.
-/

set_option autoImplicit false

namespace GkeTool

/-- A YAML scalar value as the tool sees it: a string, or Python None
(None is what the feed-resolution helper returns on failure, and what the
buggy caller then writes into the file). -/
abbrev YVal := Option String

/-- The loaded YAML document: an ordered list of key/value pairs with
unique keys (Python dict semantics; ruamel returns an ordered mapping). -/
abbrev YamlDict := List (String × YVal)

/-- Python truthiness of an optional string CLI argument
(argparse yields None when the flag is absent; an empty string is falsy). -/
def truthy : Option String → Bool
  | none => false
  | some s => s ≠ ""

/-- Python `needle in hay` for strings: substring containment. -/
def pyIn (needle hay : String) : Bool :=
  decide (needle.data <:+: hay.data)

/-- Python `s.endswith(suffix)`. -/
def pyEndsWith (s suf : String) : Bool :=
  suf.data.isSuffixOf s.data

/-- Python `s.replace(pat, rep)` on character lists: replace every
non-overlapping occurrence of `pat`, scanning left to right.  The `fuel`
argument makes the recursion structural (so that the kernel can evaluate
it); each step consumes at least one character, so any `fuel` at least
the list length is enough, and with zero fuel only the empty list (whose
answer is rightly itself) can remain.  (The tool only ever calls this
with the non-empty literal pattern "_NODE_POOL_ACTIVE"; the `pat`
nonempty guard keeps the model total.) -/
def replaceAllGo (pat rep : List Char) : Nat → List Char → List Char
  | _, [] => []
  | 0, s => s
  | fuel + 1, c :: cs =>
    if pat ≠ [] ∧ pat.isPrefixOf (c :: cs) then
      rep ++ replaceAllGo pat rep fuel ((c :: cs).drop pat.length)
    else
      c :: replaceAllGo pat rep fuel cs

/-- `replaceAllGo` with its always-sufficient fuel. -/
def replaceAll (pat rep s : List Char) : List Char :=
  replaceAllGo pat rep s.length s

/-- Python `s.replace(pat, rep)` at the String level. -/
def pyReplace (s pat rep : String) : String :=
  String.mk (replaceAll pat.data rep.data s.data)

/-- Python `s.upper()` for the ASCII strings the tool handles:
per-character uppercasing. -/
def pyUpper (s : String) : String :=
  String.mk (s.data.map Char.toUpper)

/-- `main.py` line 40: the suffix used to discover pool groups. -/
def NODE_POOL_ACTIVE_SUFFIX : String := "_NODE_POOL_ACTIVE"

/-- Split a character list at the first occurrence of the (non-empty)
pattern `pat`: returns the part before the occurrence and the part after
it, or `none` when `pat` does not occur. -/
def splitFirst (pat : List Char) : List Char → Option (List Char × List Char)
  | [] => none
  | c :: cs =>
    if pat.isPrefixOf (c :: cs) then some ([], (c :: cs).drop pat.length)
    else
      match splitFirst pat cs with
      | some (pre, post) => some (c :: pre, post)
      | none => none

/-- Like `splitFirst`, but fails if a newline is met before the pattern:
this models the fact that `.` in a Python regular expression does not
match a newline, so a non-greedy `.*?` cannot scan past one. -/
def splitFirstNoNL (pat : List Char) : List Char → Option (List Char × List Char)
  | [] => none
  | c :: cs =>
    if pat.isPrefixOf (c :: cs) then some ([], (c :: cs).drop pat.length)
    else if c = '\n' then none
    else
      match splitFirstNoNL pat cs with
      | some (pre, post) => some (c :: pre, post)
      | none => none

theorem splitFirst_post_length {pat : List Char} (hp : pat ≠ []) :
    ∀ {s pre post : List Char}, splitFirst pat s = some (pre, post) →
      post.length < s.length := by
  intro s
  induction s with
  | nil => intro pre post h; simp [splitFirst] at h
  | cons c cs ih =>
    intro pre post h
    rw [splitFirst] at h
    by_cases hpre : pat.isPrefixOf (c :: cs)
    · rw [if_pos hpre] at h
      obtain ⟨-, hpost⟩ := Prod.mk.injEq .. ▸ Option.some.injEq .. ▸ h
      have hle : pat.length ≤ (c :: cs).length :=
        (List.isPrefixOf_iff_prefix.mp hpre).length_le
      have h1 : 1 ≤ pat.length := by
        rcases pat with _ | _
        · exact absurd rfl hp
        · simp
      subst hpost
      simp only [List.length_drop, List.length_cons] at *
      omega
    · rw [if_neg hpre] at h
      rcases hrec : splitFirst pat cs with - | ⟨pre', post'⟩
      · rw [hrec] at h; exact absurd h (by simp)
      · rw [hrec] at h
        obtain ⟨-, hpost⟩ := Prod.mk.injEq .. ▸ Option.some.injEq .. ▸ h
        have := ih hrec
        subst hpost
        simp only [List.length_cons]
        omega

theorem splitFirstNoNL_post_length {pat : List Char} (hp : pat ≠ []) :
    ∀ {s pre post : List Char}, splitFirstNoNL pat s = some (pre, post) →
      post.length < s.length := by
  intro s
  induction s with
  | nil => intro pre post h; simp [splitFirstNoNL] at h
  | cons c cs ih =>
    intro pre post h
    rw [splitFirstNoNL] at h
    by_cases hpre : pat.isPrefixOf (c :: cs)
    · rw [if_pos hpre] at h
      obtain ⟨-, hpost⟩ := Prod.mk.injEq .. ▸ Option.some.injEq .. ▸ h
      have hle : pat.length ≤ (c :: cs).length :=
        (List.isPrefixOf_iff_prefix.mp hpre).length_le
      have h1 : 1 ≤ pat.length := by
        rcases pat with _ | _
        · exact absurd rfl hp
        · simp
      subst hpost
      simp only [List.length_drop, List.length_cons] at *
      omega
    · rw [if_neg hpre] at h
      by_cases hnl : c = '\n'
      · rw [if_pos hnl] at h; exact absurd h (by simp)
      · rw [if_neg hnl] at h
        rcases hrec : splitFirstNoNL pat cs with - | ⟨pre', post'⟩
        · rw [hrec] at h; exact absurd h (by simp)
        · rw [hrec] at h
          obtain ⟨-, hpost⟩ := Prod.mk.injEq .. ▸ Option.some.injEq .. ▸ h
          have := ih hrec
          subst hpost
          simp only [List.length_cons]
          omega

/-- The literal pieces of the regular expression at `main.py` line 73,
`<a href=".*?">(.*?)</a>`. -/
def anchorOpen : List Char := "<a href=\"".data

/-- End of the href attribute in the anchor pattern. -/
def anchorMid : List Char := "\">".data

/-- Closing tag in the anchor pattern. -/
def anchorClose : List Char := "</a>".data

/-- `re.findall(r'<a href=".*?">(.*?)</a>', content)` (`main.py` line 73):
scan left to right; at each occurrence of `<a href="` try to complete the
match with the nearest `">` and then the nearest `</a>` (non-greedy), with
neither stretch allowed to cross a newline (`.` does not match `\n`); on
success emit the captured link text and continue after the match, on
failure continue scanning after the failed `<a href="`.  The `fuel`
argument makes the recursion structural: every recursive call is on a
strictly shorter list (`splitFirst_post_length` and
`splitFirstNoNL_post_length`), so fuel equal to the list length is always
sufficient, and the zero-fuel arm can only be reached with the empty list,
whose answer is rightly `[]`. -/
def findallAnchorsGo : Nat → List Char → List String
  | 0, _ => []
  | fuel + 1, s =>
    match splitFirst anchorOpen s with
    | none => []
    | some (_, rest) =>
      match splitFirstNoNL anchorMid rest with
      | none => findallAnchorsGo fuel rest
      | some (_, rest2) =>
        match splitFirstNoNL anchorClose rest2 with
        | none => findallAnchorsGo fuel rest
        | some (txt, rest3) => String.mk txt :: findallAnchorsGo fuel rest3

/-- `findallAnchorsGo` with its always-sufficient fuel. -/
def findallAnchors (s : List Char) : List String :=
  findallAnchorsGo s.length s

/-- Fuel adequacy for `findallAnchorsGo`: any fuel at least the length of
the scanned list yields the same result, so `findallAnchors` computes the
fixpoint of the intended recursion. -/
theorem findallAnchorsGo_fuel_eq :
    ∀ (f1 f2 : Nat) (s : List Char), s.length ≤ f1 → s.length ≤ f2 →
      findallAnchorsGo f1 s = findallAnchorsGo f2 s := by
  intro f1
  induction f1 with
  | zero =>
    intro f2 s h1 h2
    have hs : s = [] := List.length_eq_zero.mp (Nat.le_zero.mp h1)
    subst hs
    cases f2 with
    | zero => rfl
    | succ f2 => simp [findallAnchorsGo, splitFirst]
  | succ f1 ih =>
    intro f2 s h1 h2
    cases f2 with
    | zero =>
      have hs : s = [] := List.length_eq_zero.mp (Nat.le_zero.mp h2)
      subst hs
      simp [findallAnchorsGo, splitFirst]
    | succ f2 =>
      show findallAnchorsGo (f1 + 1) s = findallAnchorsGo (f2 + 1) s
      rw [findallAnchorsGo, findallAnchorsGo]
      rcases hsp : splitFirst anchorOpen s with - | ⟨pre, rest⟩
      · simp only [hsp]
      · have hrest : rest.length < s.length :=
          splitFirst_post_length (by decide) hsp
        simp only [hsp]
        rcases hmid : splitFirstNoNL anchorMid rest with - | ⟨mid, rest2⟩
        · simp only [hmid]
          exact ih f2 rest (by omega) (by omega)
        · have hrest2 : rest2.length < rest.length :=
            splitFirstNoNL_post_length (by decide) hmid
          simp only [hmid]
          rcases hcl : splitFirstNoNL anchorClose rest2 with - | ⟨txt, rest3⟩
          · simp only [hcl]
            exact ih f2 rest (by omega) (by omega)
          · have hrest3 : rest3.length < rest2.length :=
              splitFirstNoNL_post_length (by decide) hcl
            simp only [hcl]
            rw [ih f2 rest3 (by omega) (by omega)]

/-- Python `sorted(l, reverse=True)` on strings: the canonically sorted
descending list (plain lexicographic code-point order, not
semantic-version order). -/
def sortDesc (l : List String) : List String :=
  l.insertionSort (fun a b => a ≥ b)

instance : IsTotal String (fun a b : String => a ≥ b) :=
  ⟨fun a b => le_total b a⟩

instance : IsTrans String (fun a b : String => a ≥ b) :=
  ⟨fun _ _ _ h1 h2 => le_trans h2 h1⟩

/-- Lines 73-78 of `main.py` for one feed entry: extract all link texts,
deduplicate and sort descending (Python `sorted(list(set(...)),
reverse=True)`), keep those containing the requested minor version, and
sort the survivors descending again. -/
def entryFamilyVersions (minor content : String) : List String :=
  let result := findallAnchors content.data
  let uniqueValues := sortDesc result.dedup
  sortDesc (uniqueValues.filter fun v => pyIn minor v)

/-- The entry-scanning loop of `latest_gke_version` (`main.py` lines
69-97).  `firstMatchFound` is the mutable flag of the source: with the
default (non-latest) semantics the first entry containing the minor
version only arms the flag and is skipped.  When the deciding entry
yields no version containing the minor version the source only logs a
warning and the loop continues with the next entry. -/
def latestGo (minor : String) (latest : Bool) : List String → Bool → Option String
  | [], _ => none
  | content :: rest, firstMatchFound =>
    if pyIn minor content then
      if firstMatchFound || latest then
        match entryFamilyVersions minor content with
        | v :: _ => some v
        | [] => latestGo minor latest rest firstMatchFound
      else latestGo minor latest rest true
    else latestGo minor latest rest firstMatchFound

/-- `latest_gke_version(minor_version, latest)` (`main.py` lines 64-97),
with the already-fetched feed passed in as the list of entry content
strings.  Returns `none` where the source falls off the loop and returns
Python None.  (The `os.environ` side channel of line 80 is informational
only and is dropped, as the specification allows.) -/
def latest_gke_version (feed : List String) (minor : String) (latest : Bool) :
    Option String :=
  latestGo minor latest feed false

/-- The feed entries whose content contains the minor version string, in
feed order. -/
def matchesOf (feed : List String) (minor : String) : List String :=
  feed.filter fun c => pyIn minor c

/-! ### Semantic versions (the `semver` package used at `main.py` line 36) -/

/-- A parsed semantic version.  The build-metadata part is validated by
the parser but ignored by the comparison, so it is not retained. -/
structure SemVer where
  major : Nat
  minor : Nat
  patch : Nat
  pre : List String
  deriving DecidableEq

/-- Numeric value of a digit string. -/
def natOfDigits (cs : List Char) : Nat :=
  cs.foldl (fun n c => n * 10 + (c.toNat - 48)) 0

/-- The semver numeric-identifier shape `0|[1-9]\d+*`: digits only, no
leading zero unless the identifier is exactly "0". -/
def validNum (cs : List Char) : Bool :=
  cs ≠ [] && cs.all Char.isDigit && (cs.length = 1 || cs.head? ≠ some '0')

/-- Characters allowed in semver prerelease/build identifiers. -/
def isIdentChar (c : Char) : Bool :=
  c.isDigit || c.isAlpha || c = '-'

/-- A valid semver prerelease identifier: nonempty, over the identifier
alphabet, and when purely numeric it must have no leading zero. -/
def validPreId (cs : List Char) : Bool :=
  cs ≠ [] && cs.all isIdentChar && (!cs.all Char.isDigit || validNum cs)

/-- A valid semver build identifier: nonempty over the identifier
alphabet (leading zeros allowed). -/
def validBuildId (cs : List Char) : Bool :=
  cs ≠ [] && cs.all isIdentChar

/-- `semver.Version.parse` (strict): `major.minor.patch[-pre][+build]`.
Since the three numeric components contain neither `-` nor `+`, the
prerelease part starts at the first `-` of the part before the first `+`,
which starts the build part.  Returns `none` exactly where the Python
parser raises. -/
def parseSemVer (s : String) : Option SemVer :=
  let cs := s.data
  let mainBuild := match splitFirst ['+'] cs with
    | some (a, b) => (a, some b)
    | none => (cs, none)
  let corePre := match splitFirst ['-'] mainBuild.1 with
    | some (a, b) => (a, some b)
    | none => (mainBuild.1, none)
  match (String.mk corePre.1).splitOn "." with
  | [ma, mi, pa] =>
    if validNum ma.data && validNum mi.data && validNum pa.data then
      let preIds : Option (List String) := match corePre.2 with
        | none => some []
        | some p =>
          let ids := (String.mk p).splitOn "."
          if ids.all fun i => validPreId i.data then some ids else none
      let buildOk : Bool := match mainBuild.2 with
        | none => true
        | some b => ((String.mk b).splitOn ".").all fun i => validBuildId i.data
      match preIds with
      | some pre =>
        if buildOk then
          some ⟨natOfDigits ma.data, natOfDigits mi.data, natOfDigits pa.data, pre⟩
        else none
      | none => none
    else none
  | _ => none

/-- Three-way comparison of naturals. -/
def cmpNat (a b : Nat) : Ordering :=
  if a < b then .lt else if a = b then .eq else .gt

/-- Three-way comparison of strings in code-point order (Python `<`). -/
def cmpStr (a b : String) : Ordering :=
  if a < b then .lt else if a = b then .eq else .gt

/-- Comparison of two prerelease identifiers: both numeric compare as
numbers; a numeric identifier is smaller than an alphanumeric one;
otherwise plain ASCII string order. -/
def cmpId (a b : String) : Ordering :=
  match a.data.all Char.isDigit, b.data.all Char.isDigit with
  | true, true => cmpNat (natOfDigits a.data) (natOfDigits b.data)
  | true, false => .lt
  | false, true => .gt
  | false, false => cmpStr a b

/-- Comparison of prerelease identifier lists: elementwise, a strict
prefix being smaller. -/
def cmpIds : List String → List String → Ordering
  | [], [] => .eq
  | [], _ :: _ => .lt
  | _ :: _, [] => .gt
  | a :: as', b :: bs' =>
    match cmpId a b with
    | .eq => cmpIds as' bs'
    | c => c

/-- Semver precedence: compare (major, minor, patch); then a version
without prerelease outranks one with it; otherwise compare the
prerelease identifier lists.  Build metadata is ignored. -/
def cmpVer (x y : SemVer) : Ordering :=
  match cmpNat x.major y.major with
  | .eq =>
    match cmpNat x.minor y.minor with
    | .eq =>
      match cmpNat x.patch y.patch with
      | .eq =>
        match x.pre, y.pre with
        | [], [] => .eq
        | [], _ :: _ => .gt
        | _ :: _, [] => .lt
        | xs, ys => cmpIds xs ys
      | c => c
    | c => c
  | c => c

/-! ### The YAML document and its accessors -/

/-- Dictionary lookup `d[k]` as an option: the first pair with the key
(Python dicts have unique keys, so the first is the only one). -/
def findA (cfg : YamlDict) (k : String) : Option YVal :=
  (cfg.find? fun p => p.1 == k).map Prod.snd

/-- Dictionary assignment `d[k] = v`: replace the value of the (first)
pair carrying the key in place, preserving document order, or append the
key when absent (Python dict insertion semantics; dict keys are unique,
so the first matching pair is the only one).  Every assignment the tool
performs is to an existing key, so in this development only the replace
branch is exercised. -/
def setVal : YamlDict → String → YVal → YamlDict
  | [], k, v => [(k, v)]
  | p :: cfg, k, v => if p.1 = k then (k, v) :: cfg else p :: setVal cfg k v

/-- One step of the dict comprehension of `get_active_pool_keys`: a pair
whose key ends in `_NODE_POOL_ACTIVE` inserts (label, value) into the
accumulated mapping, where the label is the key with the suffix removed
(Python `str.replace`, i.e. every occurrence removed). -/
def gapStep (m : List (String × YVal)) (p : String × YVal) : List (String × YVal) :=
  if pyEndsWith p.1 NODE_POOL_ACTIVE_SUFFIX then
    setVal m (pyReplace p.1 NODE_POOL_ACTIVE_SUFFIX "") p.2
  else m

/-- `get_active_pool_keys` (`main.py` lines 118-124): the dict
comprehension over the document restricted to keys ending in
`_NODE_POOL_ACTIVE`, mapping each such key with the suffix removed to its
stored value. -/
def get_active_pool_keys (cfg : YamlDict) : List (String × YVal) :=
  cfg.foldl gapStep []

/-- The non-active pool map of `main.py` lines 140-142: label to `"b"`
when the stored active value is exactly the string `"a"`, and to `"a"`
for every other stored value. -/
def nonActiveOf (cfg : YamlDict) : List (String × String) :=
  (get_active_pool_keys cfg).map fun lp => (lp.1, if lp.2 = some "a" then "b" else "a")

/-- The f-string of `main.py` line 144 (and 145): the slot version key
built from a pool label and a slot letter. -/
def poolVersionKey (label pool : String) : String :=
  label ++ "_NODE_POOL_" ++ pyUpper pool ++ "_KUBERNETES_VERSION"

/-- One iteration of the nodepool loop of `update_gke_version_only`
(`main.py` lines 143-170) in state-passing form.  The state is `none`
once an exception has been raised: line 145 evaluates
`active[label].upper()`, which raises `AttributeError` when the stored
active value is Python None (and `KeyError` if the label were absent).
Then, if the non-active slot key exists and its value differs from the
target, it is assigned; an absent key only logs a warning. -/
def poolStep (newV : YVal) (active : List (String × YVal))
    (st : Option (YamlDict × Bool)) (lp : String × String) :
    Option (YamlDict × Bool) :=
  match st with
  | none => none
  | some (cfg, upd) =>
    match findA active lp.1 with
    | none => none
    | some none => none
    | some (some _) =>
      let key := poolVersionKey lp.1 lp.2
      match findA cfg key with
      | none => some (cfg, upd)
      | some w => if w = newV then some (cfg, upd) else some (setVal cfg key newV, true)

/-- `update_gke_version_only` (`main.py` lines 127-179).  Returns the
mutated document together with the `updated` flag, or `none` where the
source raises (control-plane key absent — line 132 indexes it directly —
or a None-valued active flag, see `poolStep`).  The control plane is
updated first when its value differs from the target; the active map is
then computed from the (possibly updated) document, and each pool group's
non-active slot is visited in document order. -/
def update_gke_version_only (cfg : YamlDict) (newV : YVal) :
    Option (YamlDict × Bool) :=
  match findA cfg "KUBERNETES_VERSION" with
  | none => none
  | some cur =>
    let c1 := if cur = newV then cfg else setVal cfg "KUBERNETES_VERSION" newV
    let u1 := if cur = newV then false else true
    let active := get_active_pool_keys c1
    let nonActive := active.map fun lp => (lp.1, if lp.2 = some "a" then "b" else "a")
    nonActive.foldl (poolStep newV active) (some (c1, u1))

/-- The value flip of `main.py` lines 190-193: the string `"a"` becomes
`"b"`, the string `"b"` becomes `"a"`, and any other stored value is left
unchanged (the source has no else branch). -/
def flipVal (v : YVal) : YVal :=
  if v = some "a" then some "b"
  else if v = some "b" then some "a"
  else v

/-- `switch_only_active_nodepools` (`main.py` lines 182-198): every key
ending in `_NODE_POOL_ACTIVE` has its value flipped between the strings
`"a"` and `"b"`; no other key is touched. -/
def switch_only_active_nodepools (cfg : YamlDict) : YamlDict :=
  cfg.map fun p =>
    if pyEndsWith p.1 NODE_POOL_ACTIVE_SUFFIX then (p.1, flipVal p.2) else p

/-- `current_gke_version` (`main.py` lines 100-115): parse the control
plane and the two MAIN slot versions (any missing key, None value or
unparsable version raises, modelled as `none`), take the maximum by
semver precedence (Python `max` keeps the earliest of equals), and return
its first two dot-separated components (an `IndexError` — fewer than two
components — also raises). -/
def current_gke_version (cfg : YamlDict) : Option String := do
  let cpV ← findA cfg "KUBERNETES_VERSION"
  let aV ← findA cfg "MAIN_NODE_POOL_A_KUBERNETES_VERSION"
  let bV ← findA cfg "MAIN_NODE_POOL_B_KUBERNETES_VERSION"
  let cp ← cpV
  let a ← aV
  let b ← bV
  let pcp ← parseSemVer cp
  let pa ← parseSemVer a
  let pb ← parseSemVer b
  let best1 : String × SemVer := if cmpVer pa pcp = .gt then (a, pa) else (cp, pcp)
  let highest : String := if cmpVer pb best1.2 = .gt then b else best1.1
  match highest.splitOn "." with
  | p0 :: p1 :: _ => pure (p0 ++ "." ++ p1)
  | _ => none

/-! ### The command-line entry point -/

/-- The parsed CLI arguments of `main.py` lines 203-220.  Optional string
flags are `none` when absent (argparse default). -/
structure Args where
  env_file : String
  image : Option String
  minor : Option String
  latest : Bool
  switch_active_only : Bool

/-- The observable outcome of one invocation: whether the configuration
file was read, whether the release-notes catalog was consulted, the
document written back (if any), and the process exit code (0 success,
1 caught exception, 2 argparse usage error). -/
structure RunTrace where
  fileRead : Bool
  catalogConsulted : Bool
  written : Option YamlDict
  exitCode : Nat
  deriving DecidableEq

/-- The prefix check `re.match(r"\d+\.\d+", minor)` of `main.py` line
229: `re.match` anchors only at the start, so this accepts any string
STARTING with digits, a dot and digits, regardless of what follows. -/
def minorPrefixOk (s : String) : Bool :=
  let ds := s.data.takeWhile Char.isDigit
  let rest := s.data.dropWhile Char.isDigit
  !ds.isEmpty &&
    match rest with
    | '.' :: rest2 => !(rest2.takeWhile Char.isDigit).isEmpty
    | _ => false

/-- Modelled from the spec: the exact `digits.digits` shape ("two
dot-separated runs of digits and nothing else") that the specification
says a supplied minor-version flag must have.  Used only to state claims
about the validation; the code's own check is `minorPrefixOk`. -/
def minorExactShape (s : String) : Bool :=
  let ds := s.data.takeWhile Char.isDigit
  let rest := s.data.dropWhile Char.isDigit
  !ds.isEmpty &&
    match rest with
    | '.' :: rest2 => !rest2.isEmpty && rest2.all Char.isDigit
    | _ => false

/-- The tail of `main` once a target version (possibly Python None) has
been determined (`main.py` lines 255-257): apply
`update_gke_version_only` and save the file only when it reports a
change; an exception gives exit code 1. -/
def finishUpgrade (consulted : Bool) (newV : YVal) (cfg : YamlDict) : RunTrace :=
  match update_gke_version_only cfg newV with
  | none => ⟨true, consulted, none, 1⟩
  | some (cfg', true) => ⟨true, consulted, some cfg', 0⟩
  | some (_, false) => ⟨true, consulted, none, 0⟩

/-- `main` (`main.py` lines 201-260), over the already-fetched feed and
the file contents.  The guard order is the source's: empty path, missing
file and malformed minor flag raise before the file is loaded; the file
is then read; the switch-only branch runs before the conflicting-flags
check (`parser.error`, exit code 2, which the surrounding
`except Exception` does not catch since `SystemExit` is not an
`Exception`); then the minor flag, the image flag and the
current-version fallback pick the target version, and `finishUpgrade`
applies it. -/
def mainRun (args : Args) (fileExists : Bool) (feed : List String)
    (cfg : YamlDict) : RunTrace :=
  if args.env_file = "" then ⟨false, false, none, 1⟩
  else if fileExists = false then ⟨false, false, none, 1⟩
  else if truthy args.minor = true ∧ minorPrefixOk (args.minor.getD "") = false then
    ⟨false, false, none, 1⟩
  else if args.switch_active_only = true then
    ⟨true, false, some (switch_only_active_nodepools cfg), 0⟩
  else if truthy args.image = true ∧ (truthy args.minor = true ∨ args.latest = true) then
    ⟨true, false, none, 2⟩
  else if truthy args.minor = true then
    finishUpgrade true (latest_gke_version feed (args.minor.getD "") args.latest) cfg
  else if truthy args.image = true then
    finishUpgrade false args.image cfg
  else
    match current_gke_version cfg with
    | none => ⟨true, false, none, 1⟩
    | some fam => finishUpgrade true (latest_gke_version feed fam args.latest) cfg

/-! ### Dictionary lemmas -/

theorem findA_nil (k : String) : findA [] k = none := rfl

theorem findA_cons (p : String × YVal) (cfg : YamlDict) (k : String) :
    findA (p :: cfg) k = if p.1 = k then some p.2 else findA cfg k := by
  rw [findA, List.find?_cons]
  by_cases h : p.1 = k
  · simp [h]
  · simp [findA, beq_eq_false_iff_ne.mpr h, h]

theorem findA_setVal_self (cfg : YamlDict) (k : String) (v : YVal) :
    findA (setVal cfg k v) k = some v := by
  induction cfg with
  | nil =>
    show findA [(k, v)] k = some v
    rw [findA_cons, if_pos rfl]
  | cons p cfg ih =>
    rw [setVal]
    by_cases h : p.1 = k
    · rw [if_pos h, findA_cons, if_pos rfl]
    · rw [if_neg h, findA_cons, if_neg h]
      exact ih

theorem findA_setVal_other (cfg : YamlDict) {k k' : String} (v : YVal)
    (h : k' ≠ k) : findA (setVal cfg k v) k' = findA cfg k' := by
  induction cfg with
  | nil =>
    show findA [(k, v)] k' = findA [] k'
    rw [findA_cons, if_neg (Ne.symm h)]
  | cons p cfg ih =>
    rw [setVal]
    by_cases hp : p.1 = k
    · rw [if_pos hp, findA_cons, findA_cons, hp, if_neg (Ne.symm h), if_neg (Ne.symm h)]
    · rw [if_neg hp, findA_cons, findA_cons]
      by_cases hpk : p.1 = k'
      · rw [if_pos hpk, if_pos hpk]
      · rw [if_neg hpk, if_neg hpk]
        exact ih

theorem keys_setVal_of_present (cfg : YamlDict) (k : String) (v : YVal)
    (hpres : (findA cfg k).isSome = true) :
    (setVal cfg k v).map Prod.fst = cfg.map Prod.fst := by
  induction cfg with
  | nil => simp [findA_nil] at hpres
  | cons p cfg ih =>
    rw [setVal]
    by_cases h : p.1 = k
    · simp [h]
    · rw [findA_cons, if_neg h] at hpres
      simp [h, ih hpres]

theorem mem_setVal (cfg : YamlDict) (k : String) (v : YVal) (p : String × YVal)
    (hp : p ∈ setVal cfg k v) : p ∈ cfg ∨ p = (k, v) := by
  induction cfg with
  | nil =>
    right
    simpa [setVal] using hp
  | cons q cfg ih =>
    rw [setVal] at hp
    by_cases h : q.1 = k
    · rw [if_pos h] at hp
      rcases List.mem_cons.mp hp with h1 | h1
      · exact Or.inr h1
      · exact Or.inl (List.mem_cons_of_mem _ h1)
    · rw [if_neg h] at hp
      rcases List.mem_cons.mp hp with h1 | h1
      · exact Or.inl (h1 ▸ List.mem_cons_self ..)
      · rcases ih h1 with h2 | h2
        · exact Or.inl (List.mem_cons_of_mem _ h2)
        · exact Or.inr h2

theorem pairwise_keyNe_setVal (cfg : YamlDict) (k : String) (v : YVal)
    (h : cfg.Pairwise fun p q => p.1 ≠ q.1) :
    (setVal cfg k v).Pairwise fun p q => p.1 ≠ q.1 := by
  induction cfg with
  | nil => simp [setVal]
  | cons p cfg ih =>
    obtain ⟨hhd, htl⟩ := List.pairwise_cons.mp h
    rw [setVal]
    by_cases hp : p.1 = k
    · rw [if_pos hp]
      exact List.pairwise_cons.mpr ⟨fun q hq => hp ▸ hhd q hq, htl⟩
    · rw [if_neg hp]
      refine List.pairwise_cons.mpr ⟨?_, ih htl⟩
      intro q hq
      rcases mem_setVal cfg k v q hq with h1 | h1
      · exact hhd q h1
      · rw [h1]
        exact hp

theorem findA_of_mem_pairwise {cfg : YamlDict} {k : String} {v : YVal}
    (hpw : cfg.Pairwise fun p q => p.1 ≠ q.1) (hmem : (k, v) ∈ cfg) :
    findA cfg k = some v := by
  induction cfg with
  | nil => exact absurd hmem (List.not_mem_nil _)
  | cons p cfg ih =>
    obtain ⟨hhd, htl⟩ := List.pairwise_cons.mp hpw
    rcases List.mem_cons.mp hmem with h | h
    · rw [← h, findA_cons]
      simp
    · have hne : p.1 ≠ k := by simpa using hhd (k, v) h
      rw [findA_cons, if_neg hne]
      exact ih htl h

/-! ### Lemmas about the active-pool map -/

theorem gap_foldl_pairwise (cfg : YamlDict) :
    ∀ acc : List (String × YVal), (acc.Pairwise fun p q => p.1 ≠ q.1) →
      (cfg.foldl gapStep acc).Pairwise fun p q => p.1 ≠ q.1 := by
  induction cfg with
  | nil => intro acc h; exact h
  | cons p cfg ih =>
    intro acc h
    rw [List.foldl_cons]
    apply ih
    rw [gapStep]
    by_cases hs : pyEndsWith p.1 NODE_POOL_ACTIVE_SUFFIX = true
    · rw [if_pos hs]
      exact pairwise_keyNe_setVal _ _ _ h
    · rwa [if_neg hs]

theorem gap_pairwise (cfg : YamlDict) :
    (get_active_pool_keys cfg).Pairwise fun p q => p.1 ≠ q.1 :=
  gap_foldl_pairwise cfg [] List.Pairwise.nil

theorem gap_foldl_values (cfg : YamlDict) :
    ∀ (acc : List (String × YVal)) (p : String × YVal),
      p ∈ cfg.foldl gapStep acc →
      p ∈ acc ∨ ∃ q ∈ cfg, pyEndsWith q.1 NODE_POOL_ACTIVE_SUFFIX = true ∧ p.2 = q.2 := by
  induction cfg with
  | nil => intro acc p hp; exact Or.inl hp
  | cons x cfg ih =>
    intro acc p hp
    rw [List.foldl_cons] at hp
    rcases ih (gapStep acc x) p hp with h | ⟨q, hq, hqs, hqv⟩
    · rw [gapStep] at h
      by_cases hs : pyEndsWith x.1 NODE_POOL_ACTIVE_SUFFIX = true
      · rw [if_pos hs] at h
        rcases mem_setVal _ _ _ _ h with h1 | h1
        · exact Or.inl h1
        · exact Or.inr ⟨x, List.mem_cons_self .., hs, by rw [h1]⟩
      · rw [if_neg hs] at h
        exact Or.inl h
    · exact Or.inr ⟨q, List.mem_cons_of_mem _ hq, hqs, hqv⟩

theorem gap_values (cfg : YamlDict) (p : String × YVal)
    (hp : p ∈ get_active_pool_keys cfg) :
    ∃ q ∈ cfg, pyEndsWith q.1 NODE_POOL_ACTIVE_SUFFIX = true ∧ p.2 = q.2 := by
  rcases gap_foldl_values cfg [] p hp with h | h
  · exact absurd h (List.not_mem_nil _)
  · exact h

theorem gap_foldl_setVal_nonsuffix (cfg : YamlDict) (k : String) (v : YVal)
    (hk : pyEndsWith k NODE_POOL_ACTIVE_SUFFIX = false) :
    ∀ acc : List (String × YVal),
      (setVal cfg k v).foldl gapStep acc = cfg.foldl gapStep acc := by
  induction cfg with
  | nil =>
    intro acc
    show List.foldl gapStep acc [(k, v)] = acc
    rw [List.foldl_cons, List.foldl_nil, gapStep]
    simp [hk]
  | cons p cfg ih =>
    intro acc
    rw [setVal]
    by_cases hp : p.1 = k
    · rw [if_pos hp, List.foldl_cons, List.foldl_cons]
      have h1 : gapStep acc (k, v) = acc := by rw [gapStep]; simp [hk]
      have h2 : gapStep acc p = acc := by rw [gapStep]; simp [hp, hk]
      rw [h1, h2]
    · rw [if_neg hp, List.foldl_cons, List.foldl_cons]
      exact ih _

theorem gap_setVal_nonsuffix (cfg : YamlDict) (k : String) (v : YVal)
    (hk : pyEndsWith k NODE_POOL_ACTIVE_SUFFIX = false) :
    get_active_pool_keys (setVal cfg k v) = get_active_pool_keys cfg :=
  gap_foldl_setVal_nonsuffix cfg k v hk []

theorem nonActive_pool_ab (cfg : YamlDict) (lp : String × String)
    (h : lp ∈ nonActiveOf cfg) : lp.2 = "a" ∨ lp.2 = "b" := by
  obtain ⟨q, -, hq⟩ := List.mem_map.mp h
  by_cases hv : q.2 = some "a"
  · right; rw [← hq]; simp [hv]
  · left; rw [← hq]; simp [hv]

/-! ### String and slot-key lemmas -/

theorem poolVersionKey_data (label p : String) :
    (poolVersionKey label p).data =
      label.data ++ "_NODE_POOL_".data ++ (pyUpper p).data ++ "_KUBERNETES_VERSION".data := by
  rw [poolVersionKey, String.data_append, String.data_append, String.data_append]

theorem poolVersionKey_a_data (label : String) :
    (poolVersionKey label "a").data =
      label.data ++ "_NODE_POOL_A_KUBERNETES_VERSION".data := by
  rw [poolVersionKey_data, List.append_assoc, List.append_assoc]
  congr 1

theorem poolVersionKey_b_data (label : String) :
    (poolVersionKey label "b").data =
      label.data ++ "_NODE_POOL_B_KUBERNETES_VERSION".data := by
  rw [poolVersionKey_data, List.append_assoc, List.append_assoc]
  congr 1

/-- The slot-key character data for a slot letter "a" or "b": the label's
characters followed by a fixed 31-character tail. -/
theorem poolVersionKey_tail (l p : String) (hp : p = "a" ∨ p = "b") :
    ∃ R : List Char, (poolVersionKey l p).data = l.data ++ R ∧ R.length = 31 := by
  rcases hp with hp | hp <;> subst hp
  · exact ⟨_, poolVersionKey_a_data l, by decide⟩
  · exact ⟨_, poolVersionKey_b_data l, by decide⟩

theorem poolVersionKey_ne_KV (label : String) {p : String}
    (hp : p = "a" ∨ p = "b") : poolVersionKey label p ≠ "KUBERNETES_VERSION" := by
  intro h
  obtain ⟨R, hR, hRlen⟩ := poolVersionKey_tail label p hp
  have hd := congrArg String.data h
  rw [hR] at hd
  have hlen := congrArg List.length hd
  rw [List.length_append, hRlen] at hlen
  have h18 : ("KUBERNETES_VERSION" : String).data.length = 18 := by decide
  rw [h18] at hlen
  omega

theorem suffix_append_iff_of_length_le {pat x y : List Char}
    (h : pat.length ≤ y.length) : pat <:+ x ++ y ↔ pat <:+ y := by
  constructor
  · rintro ⟨pre, hpre⟩
    have hlen := congrArg List.length hpre
    rw [List.length_append, List.length_append] at hlen
    have h1 : pat = List.drop pre.length (pre ++ pat) := (List.drop_left pre pat).symm
    rw [hpre, List.drop_append_eq_append_drop] at h1
    have h2 : List.drop pre.length x = [] := List.drop_eq_nil_of_le (by omega)
    rw [h2, List.nil_append] at h1
    rw [h1]
    exact List.drop_suffix _ _
  · intro hs
    exact hs.trans (List.suffix_append x y)

theorem isSuffixOf_append_of_length_le {pat y : List Char} (x : List Char)
    (h : pat.length ≤ y.length) :
    pat.isSuffixOf (x ++ y) = pat.isSuffixOf y := by
  by_cases hs : pat <:+ y
  · rw [List.isSuffixOf_iff_suffix.mpr hs,
      List.isSuffixOf_iff_suffix.mpr ((suffix_append_iff_of_length_le h).mpr hs)]
  · have h1 : ¬(pat <:+ x ++ y) := fun hc => hs ((suffix_append_iff_of_length_le h).mp hc)
    rcases hb : pat.isSuffixOf (x ++ y) with - | -
    · rcases hb2 : pat.isSuffixOf y with - | -
      · rfl
      · exact absurd (List.isSuffixOf_iff_suffix.mp hb2) hs
    · exact absurd (List.isSuffixOf_iff_suffix.mp hb) h1

theorem poolVersionKey_not_active_suffix (label : String) {p : String}
    (hp : p = "a" ∨ p = "b") :
    pyEndsWith (poolVersionKey label p) NODE_POOL_ACTIVE_SUFFIX = false := by
  rw [pyEndsWith]
  rcases hp with hp | hp <;> subst hp
  · rw [poolVersionKey_a_data,
      isSuffixOf_append_of_length_le label.data (by decide)]
    decide
  · rw [poolVersionKey_b_data,
      isSuffixOf_append_of_length_le label.data (by decide)]
    decide

theorem poolVersionKey_inj {l1 l2 p1 p2 : String}
    (hp1 : p1 = "a" ∨ p1 = "b") (hp2 : p2 = "a" ∨ p2 = "b")
    (h : poolVersionKey l1 p1 = poolVersionKey l2 p2) : l1 = l2 ∧ p1 = p2 := by
  have hA : ("_NODE_POOL_A_KUBERNETES_VERSION" : String).data.length = 31 := by decide
  have hB : ("_NODE_POOL_B_KUBERNETES_VERSION" : String).data.length = 31 := by decide
  have hd := congrArg String.data h
  rcases hp1 with h1 | h1 <;> rcases hp2 with h2 | h2 <;> subst h1 <;> subst h2
  · rw [poolVersionKey_a_data, poolVersionKey_a_data] at hd
    have hlen := congrArg List.length hd
    rw [List.length_append, List.length_append, hA] at hlen
    exact ⟨String.ext (List.append_inj hd (by omega)).1, rfl⟩
  · rw [poolVersionKey_a_data, poolVersionKey_b_data] at hd
    have hlen := congrArg List.length hd
    rw [List.length_append, List.length_append, hA, hB] at hlen
    have h2 := (List.append_inj hd (by omega)).2
    exact absurd h2 (by decide)
  · rw [poolVersionKey_b_data, poolVersionKey_a_data] at hd
    have hlen := congrArg List.length hd
    rw [List.length_append, List.length_append, hA, hB] at hlen
    have h2 := (List.append_inj hd (by omega)).2
    exact absurd h2 (by decide)
  · rw [poolVersionKey_b_data, poolVersionKey_b_data] at hd
    have hlen := congrArg List.length hd
    rw [List.length_append, List.length_append, hB] at hlen
    exact ⟨String.ext (List.append_inj hd (by omega)).1, rfl⟩

/-! ### The nodepool update loop -/

theorem mem_of_findA {cfg : YamlDict} {k : String} {v : YVal}
    (h : findA cfg k = some v) : ∃ q ∈ cfg, q.1 = k ∧ q.2 = v := by
  rw [findA] at h
  rcases hf : cfg.find? fun p => p.1 == k with - | p
  · rw [hf] at h; cases h
  · rw [hf] at h
    have hp : p ∈ cfg := List.mem_of_find?_eq_some hf
    have hk : p.1 = k := by
      have := List.find?_some hf
      simpa using this
    exact ⟨p, hp, hk, by simpa using h⟩

/-- Whether the nodepool loop needs to modify the slot key of a given
(label, non-active slot) pair in a given document. -/
def poolChangeNeeded (newV : YVal) (c : YamlDict) (lp : String × String) : Bool :=
  match findA c (poolVersionKey lp.1 lp.2) with
  | some w => decide ¬(w = newV)
  | none => false

theorem poolFold_spec (newV : YVal) (A : List (String × YVal)) :
    ∀ L : List (String × String),
      (∀ lp ∈ L, ∃ s, findA A lp.1 = some (some s)) →
      (L.Pairwise fun x y => poolVersionKey x.1 x.2 ≠ poolVersionKey y.1 y.2) →
      (∀ lp ∈ L, pyEndsWith (poolVersionKey lp.1 lp.2) NODE_POOL_ACTIVE_SUFFIX = false) →
      ∀ (c0 : YamlDict) (u0 : Bool),
        ∃ cF uF, L.foldl (poolStep newV A) (some (c0, u0)) = some (cF, uF) ∧
          (∀ k : String, (∀ lp ∈ L, poolVersionKey lp.1 lp.2 ≠ k) →
            findA cF k = findA c0 k) ∧
          (∀ lp ∈ L, ∀ w, findA c0 (poolVersionKey lp.1 lp.2) = some w →
            findA cF (poolVersionKey lp.1 lp.2) = some newV) ∧
          (∀ lp ∈ L, findA c0 (poolVersionKey lp.1 lp.2) = none →
            findA cF (poolVersionKey lp.1 lp.2) = none) ∧
          uF = (u0 || L.any (poolChangeNeeded newV c0)) ∧
          cF.map Prod.fst = c0.map Prod.fst ∧
          (∀ p ∈ cF, ∃ q ∈ c0, p.1 = q.1 ∧ (p.2 = q.2 ∨ p.2 = newV)) ∧
          get_active_pool_keys cF = get_active_pool_keys c0 ∧
          (uF = false → cF = c0) := by
  intro L
  induction L with
  | nil =>
    intro _ _ _ c0 u0
    exact ⟨c0, u0, rfl, fun k _ => rfl, fun lp h => absurd h (List.not_mem_nil _),
      fun lp h => absurd h (List.not_mem_nil _), by simp, rfl,
      fun p hp => ⟨p, hp, rfl, Or.inl rfl⟩, rfl, fun _ => rfl⟩
  | cons lp T ih =>
    intro hA hdist hsuf c0 u0
    obtain ⟨hhd, hdT⟩ := List.pairwise_cons.mp hdist
    have hAT : ∀ q ∈ T, ∃ s, findA A q.1 = some (some s) :=
      fun q hq => hA q (List.mem_cons_of_mem _ hq)
    have hsT : ∀ q ∈ T,
        pyEndsWith (poolVersionKey q.1 q.2) NODE_POOL_ACTIVE_SUFFIX = false :=
      fun q hq => hsuf q (List.mem_cons_of_mem _ hq)
    obtain ⟨s, hAs⟩ := hA lp (List.mem_cons_self ..)
    have hTne : ∀ q ∈ T, poolVersionKey q.1 q.2 ≠ poolVersionKey lp.1 lp.2 :=
      fun q hq => (hhd q hq).symm
    rw [List.foldl_cons]
    rcases hc : findA c0 (poolVersionKey lp.1 lp.2) with - | w
    · -- slot key absent: the step only logs a warning
      have hstep : poolStep newV A (some (c0, u0)) lp = some (c0, u0) := by
        simp only [poolStep, hAs, hc]
      rw [hstep]
      obtain ⟨cF, uF, hfold, hframe, hset, hnone, hupd, hkeys, hmemf, hgap, hidem⟩ :=
        ih hAT hdT hsT c0 u0
      refine ⟨cF, uF, hfold, ?_, ?_, ?_, ?_, hkeys, hmemf, hgap, hidem⟩
      · intro k hk
        exact hframe k fun q hq => hk q (List.mem_cons_of_mem _ hq)
      · intro lp' hlp' w' hw'
        rcases List.mem_cons.mp hlp' with h | h
        · subst h
          rw [hc] at hw'
          cases hw'
        · exact hset lp' h w' hw'
      · intro lp' hlp' hn
        rcases List.mem_cons.mp hlp' with h | h
        · subst h
          rw [hframe _ hTne]
          exact hn
        · exact hnone lp' h hn
      · rw [hupd, List.any_cons]
        have h1 : poolChangeNeeded newV c0 lp = false := by
          rw [poolChangeNeeded, hc]
        rw [h1, Bool.false_or]
    · by_cases hw : w = newV
      · -- value already equals the target: the step reports "already at"
        have hstep : poolStep newV A (some (c0, u0)) lp = some (c0, u0) := by
          simp only [poolStep, hAs, hc, if_pos hw]
        rw [hstep]
        obtain ⟨cF, uF, hfold, hframe, hset, hnone, hupd, hkeys, hmemf, hgap, hidem⟩ :=
          ih hAT hdT hsT c0 u0
        refine ⟨cF, uF, hfold, ?_, ?_, ?_, ?_, hkeys, hmemf, hgap, hidem⟩
        · intro k hk
          exact hframe k fun q hq => hk q (List.mem_cons_of_mem _ hq)
        · intro lp' hlp' w' hw'
          rcases List.mem_cons.mp hlp' with h | h
          · subst h
            rw [hframe _ hTne, hc, hw]
          · exact hset lp' h w' hw'
        · intro lp' hlp' hn
          rcases List.mem_cons.mp hlp' with h | h
          · subst h
            rw [hc] at hn
            cases hn
          · exact hnone lp' h hn
        · rw [hupd, List.any_cons]
          have h1 : poolChangeNeeded newV c0 lp = false := by
            rw [poolChangeNeeded, hc]
            simp [hw]
          rw [h1, Bool.false_or]
      · -- differing value: the slot key is assigned the target
        have hstep : poolStep newV A (some (c0, u0)) lp =
            some (setVal c0 (poolVersionKey lp.1 lp.2) newV, true) := by
          simp only [poolStep, hAs, hc, if_neg hw]
        rw [hstep]
        have hpres : (findA c0 (poolVersionKey lp.1 lp.2)).isSome = true := by
          rw [hc]
          rfl
        obtain ⟨cF, uF, hfold, hframe, hset, hnone, hupd, hkeys, hmemf, hgap, hidem⟩ :=
          ih hAT hdT hsT (setVal c0 (poolVersionKey lp.1 lp.2) newV) true
        refine ⟨cF, uF, hfold, ?_, ?_, ?_, ?_, ?_, ?_, ?_, ?_⟩
        · intro k hk
          rw [hframe k fun q hq => hk q (List.mem_cons_of_mem _ hq)]
          exact findA_setVal_other c0 newV fun he =>
            hk lp (List.mem_cons_self ..) he.symm
        · intro lp' hlp' w' hw'
          rcases List.mem_cons.mp hlp' with h | h
          · subst h
            rw [hframe _ hTne]
            exact findA_setVal_self ..
          · refine hset lp' h w' ?_
            rw [findA_setVal_other c0 newV (hTne lp' h)]
            exact hw'
        · intro lp' hlp' hn
          rcases List.mem_cons.mp hlp' with h | h
          · subst h
            rw [hc] at hn
            cases hn
          · refine hnone lp' h ?_
            rw [findA_setVal_other c0 newV (hTne lp' h)]
            exact hn
        · have h1 : poolChangeNeeded newV c0 lp = true := by
            rw [poolChangeNeeded, hc]
            simp [hw]
          rw [hupd, List.any_cons, h1]
          simp
        · rw [hkeys]
          exact keys_setVal_of_present c0 _ newV hpres
        · intro p hp
          obtain ⟨q1, hq1, hq1k, hq1v⟩ := hmemf p hp
          rcases mem_setVal _ _ _ _ hq1 with h | h
          · exact ⟨q1, h, hq1k, hq1v⟩
          · obtain ⟨q0, hq0, hq0k, -⟩ := mem_of_findA hc
            refine ⟨q0, hq0, ?_, Or.inr ?_⟩
            · rw [hq1k, h, hq0k]
            · rcases hq1v with hv | hv
              · rw [hv, h]
              · exact hv
        · rw [hgap]
          exact gap_setVal_nonsuffix c0 _ newV (hsuf lp (List.mem_cons_self ..))
        · intro hfalse
          rw [hupd] at hfalse
          simp at hfalse

/-! ### The master characterisation of `update_gke_version_only` -/

theorem nonActive_mem_elim (cfg : YamlDict) (lp : String × String)
    (h : lp ∈ nonActiveOf cfg) :
    ∃ av, (lp.1, av) ∈ get_active_pool_keys cfg ∧
      lp.2 = (if av = some "a" then "b" else "a") := by
  obtain ⟨q, hq, heq⟩ := List.mem_map.mp h
  exact ⟨q.2, by rw [← heq] at *; exact hq, by rw [← heq]⟩

/-- Hypothesis shorthand: every active-flag value stored in the document
is a string (not Python None), so line 145 of the source cannot raise. -/
abbrev ActFlagsStrings (cfg : YamlDict) : Prop :=
  ∀ p ∈ cfg, pyEndsWith p.1 NODE_POOL_ACTIVE_SUFFIX = true → p.2 ≠ none

theorem hA_of_act (cfg : YamlDict) (hact : ActFlagsStrings cfg) :
    ∀ lp ∈ nonActiveOf cfg, ∃ s,
      findA (get_active_pool_keys cfg) lp.1 = some (some s) := by
  intro lp hlp
  obtain ⟨av, hmem, -⟩ := nonActive_mem_elim cfg lp hlp
  have hfind : findA (get_active_pool_keys cfg) lp.1 = some av :=
    findA_of_mem_pairwise (gap_pairwise cfg) hmem
  obtain ⟨q, hq, hqs, hqv⟩ := gap_values cfg (lp.1, av) hmem
  have hne : av ≠ none := by
    have h2 : av = q.2 := hqv
    rw [h2]
    exact hact q hq hqs
  rcases hav : av with - | s
  · exact absurd hav hne
  · exact ⟨s, by rw [← hav]; exact hfind⟩

theorem nonActive_pairwise_keys (cfg : YamlDict) :
    (nonActiveOf cfg).Pairwise fun x y =>
      poolVersionKey x.1 x.2 ≠ poolVersionKey y.1 y.2 := by
  rw [nonActiveOf]
  refine List.Pairwise.map _ ?_ (gap_pairwise cfg)
  intro a b hab hkey
  have ha : (if a.2 = some "a" then "b" else "a") = "a" ∨
      (if a.2 = some "a" then "b" else "a") = "b" := by
    by_cases h : a.2 = some "a" <;> simp [h]
  have hb : (if b.2 = some "a" then "b" else "a") = "a" ∨
      (if b.2 = some "a" then "b" else "a") = "b" := by
    by_cases h : b.2 = some "a" <;> simp [h]
  exact hab (poolVersionKey_inj ha hb hkey).1

theorem nonActive_keys_not_suffix (cfg : YamlDict) :
    ∀ lp ∈ nonActiveOf cfg,
      pyEndsWith (poolVersionKey lp.1 lp.2) NODE_POOL_ACTIVE_SUFFIX = false :=
  fun lp hlp => poolVersionKey_not_active_suffix lp.1 (nonActive_pool_ab cfg lp hlp)

theorem nonActive_keys_ne_KV (cfg : YamlDict) :
    ∀ lp ∈ nonActiveOf cfg, poolVersionKey lp.1 lp.2 ≠ "KUBERNETES_VERSION" :=
  fun lp hlp => poolVersionKey_ne_KV lp.1 (nonActive_pool_ab cfg lp hlp)

/-- The full behaviour of `update_gke_version_only` on a document whose
control-plane key is present and whose active flags are strings: the call
succeeds; the control plane ends at the target; every present non-active
slot key ends at the target and an absent one stays absent; no other
field changes; the `updated` flag is true exactly when the control plane
or some present non-active slot differed from the target; no key is
created or removed; values only ever change to the target; the active
pool map is preserved; and a false flag means the document is untouched. -/
theorem update_spec (cfg : YamlDict) (newV cv : YVal)
    (hKV : findA cfg "KUBERNETES_VERSION" = some cv)
    (hact : ActFlagsStrings cfg) :
    ∃ cfg' upd, update_gke_version_only cfg newV = some (cfg', upd) ∧
      findA cfg' "KUBERNETES_VERSION" = some newV ∧
      (∀ k : String, k ≠ "KUBERNETES_VERSION" →
        (∀ lp ∈ nonActiveOf cfg, poolVersionKey lp.1 lp.2 ≠ k) →
        findA cfg' k = findA cfg k) ∧
      (∀ lp ∈ nonActiveOf cfg, ∀ w, findA cfg (poolVersionKey lp.1 lp.2) = some w →
        findA cfg' (poolVersionKey lp.1 lp.2) = some newV) ∧
      (∀ lp ∈ nonActiveOf cfg, findA cfg (poolVersionKey lp.1 lp.2) = none →
        findA cfg' (poolVersionKey lp.1 lp.2) = none) ∧
      upd = (decide ¬(cv = newV) ||
        (nonActiveOf cfg).any (poolChangeNeeded newV cfg)) ∧
      cfg'.map Prod.fst = cfg.map Prod.fst ∧
      (∀ p ∈ cfg', ∃ q ∈ cfg, p.1 = q.1 ∧ (p.2 = q.2 ∨ p.2 = newV)) ∧
      get_active_pool_keys cfg' = get_active_pool_keys cfg ∧
      (upd = false → cfg' = cfg) := by
  have hKVsuf : pyEndsWith "KUBERNETES_VERSION" NODE_POOL_ACTIVE_SUFFIX = false := by
    decide
  have hnaRfl : nonActiveOf cfg =
      (get_active_pool_keys cfg).map fun lp =>
        (lp.1, if lp.2 = some "a" then "b" else "a") := rfl
  by_cases hcv : cv = newV
  · -- control plane already at the target
    obtain ⟨cF, uF, hfold, hframe, hset, hnone, hupd, hkeys, hmemf, hgap, hidem⟩ :=
      poolFold_spec newV (get_active_pool_keys cfg) (nonActiveOf cfg)
        (hA_of_act cfg hact) (nonActive_pairwise_keys cfg)
        (nonActive_keys_not_suffix cfg) cfg false
    refine ⟨cF, uF, ?_, ?_, ?_, hset, hnone, ?_, hkeys, hmemf, hgap, hidem⟩
    · simp only [update_gke_version_only, hKV, if_pos hcv]
      rw [← hnaRfl]
      exact hfold
    · rw [hframe _ (nonActive_keys_ne_KV cfg), hKV, hcv]
    · intro k hkv hks
      exact hframe k hks
    · rw [hupd]
      simp [hcv]
  · -- control plane differs: it is set first
    have hpresKV : (findA cfg "KUBERNETES_VERSION").isSome = true := by
      rw [hKV]
      rfl
    have hgapeq :
        get_active_pool_keys (setVal cfg "KUBERNETES_VERSION" newV) =
          get_active_pool_keys cfg :=
      gap_setVal_nonsuffix cfg _ newV hKVsuf
    obtain ⟨cF, uF, hfold, hframe, hset, hnone, hupd, hkeys, hmemf, hgap, hidem⟩ :=
      poolFold_spec newV (get_active_pool_keys cfg) (nonActiveOf cfg)
        (hA_of_act cfg hact) (nonActive_pairwise_keys cfg)
        (nonActive_keys_not_suffix cfg)
        (setVal cfg "KUBERNETES_VERSION" newV) true
    refine ⟨cF, uF, ?_, ?_, ?_, ?_, ?_, ?_, ?_, ?_, ?_, ?_⟩
    · simp only [update_gke_version_only, hKV, if_neg hcv]
      rw [hgapeq, ← hnaRfl]
      exact hfold
    · rw [hframe _ (nonActive_keys_ne_KV cfg)]
      exact findA_setVal_self ..
    · intro k hkv hks
      rw [hframe k hks]
      exact findA_setVal_other cfg newV hkv
    · intro lp hlp w hw
      refine hset lp hlp w ?_
      rw [findA_setVal_other cfg newV (nonActive_keys_ne_KV cfg lp hlp)]
      exact hw
    · intro lp hlp hn
      refine hnone lp hlp ?_
      rw [findA_setVal_other cfg newV (nonActive_keys_ne_KV cfg lp hlp)]
      exact hn
    · rw [hupd]
      have hpcn : ∀ lp ∈ nonActiveOf cfg,
          poolChangeNeeded newV (setVal cfg "KUBERNETES_VERSION" newV) lp =
            poolChangeNeeded newV cfg lp := by
        intro lp hlp
        rw [poolChangeNeeded, poolChangeNeeded,
          findA_setVal_other cfg newV (nonActive_keys_ne_KV cfg lp hlp)]
      simp [hcv]
    · rw [hkeys]
      exact keys_setVal_of_present cfg _ newV hpresKV
    · intro p hp
      obtain ⟨q1, hq1, hq1k, hq1v⟩ := hmemf p hp
      rcases mem_setVal _ _ _ _ hq1 with h | h
      · exact ⟨q1, h, hq1k, hq1v⟩
      · obtain ⟨q0, hq0, hq0k, -⟩ := mem_of_findA hKV
        refine ⟨q0, hq0, ?_, Or.inr ?_⟩
        · rw [hq1k, h, hq0k]
        · rcases hq1v with hv | hv
          · rw [hv, h]
          · exact hv
    · rw [hgap]
      exact hgapeq
    · intro hfalse
      rw [hupd] at hfalse
      simp at hfalse

/-! ### Feed-resolution lemmas -/

theorem mem_sortDesc {l : List String} {a : String} : a ∈ sortDesc l ↔ a ∈ l :=
  (List.perm_insertionSort _ l).mem_iff

theorem sortDesc_head_max {l : List String} {v : String} {t : List String}
    (h : sortDesc l = v :: t) : v ∈ l ∧ ∀ w ∈ l, w ≤ v := by
  have hperm : (sortDesc l).Perm l := List.perm_insertionSort _ l
  have hsorted : List.Sorted (fun a b : String => a ≥ b) (sortDesc l) :=
    List.sorted_insertionSort _ l
  rw [h] at hperm hsorted
  obtain ⟨hhd, -⟩ := List.sorted_cons.mp hsorted
  constructor
  · exact hperm.mem_iff.mp (List.mem_cons_self ..)
  · intro w hw
    rcases List.mem_cons.mp (hperm.mem_iff.mpr hw) with h1 | h1
    · exact le_of_eq h1
    · exact hhd w h1

theorem entryFamilyVersions_head {minor e v : String} {t : List String}
    (h : entryFamilyVersions minor e = v :: t) :
    v ∈ findallAnchors e.data ∧ pyIn minor v = true ∧
      ∀ w ∈ findallAnchors e.data, pyIn minor w = true → w ≤ v := by
  simp only [entryFamilyVersions] at h
  obtain ⟨hv, hmax⟩ := sortDesc_head_max h
  have hvf := List.mem_filter.mp hv
  have hv2 : v ∈ findallAnchors e.data :=
    List.mem_dedup.mp (mem_sortDesc.mp hvf.1)
  refine ⟨hv2, hvf.2, ?_⟩
  intro w hw hwin
  exact hmax w (List.mem_filter.mpr ⟨mem_sortDesc.mpr (List.mem_dedup.mpr hw), hwin⟩)

theorem matchesOf_cons_pos {minor c : String} (rest : List String)
    (hc : pyIn minor c = true) :
    matchesOf (c :: rest) minor = c :: matchesOf rest minor := by
  rw [matchesOf, matchesOf, List.filter_cons, if_pos hc]

theorem matchesOf_cons_neg {minor c : String} (rest : List String)
    (hc : ¬pyIn minor c = true) :
    matchesOf (c :: rest) minor = matchesOf rest minor := by
  rw [matchesOf, matchesOf, List.filter_cons, if_neg hc]

theorem latestGo_first_match {minor : String} {latest : Bool} :
    ∀ (l : List String) (b : Bool), (b || latest) = true →
      ∀ {e v : String} {t : List String},
        (matchesOf l minor).head? = some e →
        entryFamilyVersions minor e = v :: t →
        latestGo minor latest l b = some v := by
  intro l
  induction l with
  | nil =>
    intro b hb e v t hh hf
    simp [matchesOf] at hh
  | cons c rest ih =>
    intro b hb e v t hh hf
    rw [latestGo]
    by_cases hc : pyIn minor c = true
    · rw [if_pos hc, if_pos hb]
      rw [matchesOf_cons_pos rest hc] at hh
      have he : c = e := by simpa using hh
      rw [he, hf]
    · rw [if_neg hc]
      rw [matchesOf_cons_neg rest hc] at hh
      exact ih b hb hh hf

theorem latestGo_second_match {minor : String} :
    ∀ (l : List String), ∀ {e v : String} {t : List String},
      (matchesOf l minor).get? 1 = some e →
      entryFamilyVersions minor e = v :: t →
      latestGo minor false l false = some v := by
  intro l
  induction l with
  | nil =>
    intro e v t hh hf
    simp [matchesOf] at hh
  | cons c rest ih =>
    intro e v t hh hf
    rw [latestGo]
    by_cases hc : pyIn minor c = true
    · rw [if_pos hc, if_neg (by simp : ¬((false || false) = true))]
      rw [matchesOf_cons_pos rest hc] at hh
      have hh' : (matchesOf rest minor).head? = some e := by
        rw [List.get?_cons_succ, List.get?_zero] at hh
        exact hh
      exact latestGo_first_match rest true rfl hh' hf
    · rw [if_neg hc]
      rw [matchesOf_cons_neg rest hc] at hh
      exact ih hh hf

theorem latestGo_eq_none_iff {minor : String} {latest : Bool} :
    ∀ (l : List String) (b : Bool),
      latestGo minor latest l b = none ↔
        ∀ e ∈ (if (b || latest) = true then matchesOf l minor
               else (matchesOf l minor).drop 1),
          entryFamilyVersions minor e = [] := by
  intro l
  induction l with
  | nil =>
    intro b
    constructor
    · intro _ e he
      by_cases hb : (b || latest) = true <;>
        simp [matchesOf, hb] at he
    · intro _
      rfl
  | cons c rest ih =>
    intro b
    rw [latestGo]
    by_cases hc : pyIn minor c = true
    · rw [if_pos hc, matchesOf_cons_pos rest hc]
      by_cases hb : (b || latest) = true
      · rw [if_pos hb, if_pos hb]
        rcases hf : entryFamilyVersions minor c with - | ⟨v, t⟩
        · show latestGo minor latest rest b = none ↔ _
          have hrec := ih b
          rw [if_pos hb] at hrec
          rw [hrec]
          constructor
          · intro h e he
            rcases List.mem_cons.mp he with h1 | h1
            · rw [h1]
              exact hf
            · exact h e h1
          · intro h e he
            exact h e (List.mem_cons_of_mem _ he)
        · show some v = none ↔ _
          constructor
          · intro h
            cases h
          · intro h
            have := h c (List.mem_cons_self ..)
            rw [hf] at this
            cases this
      · rw [if_neg hb, if_neg hb]
        have hrec := ih true
        rw [if_pos (by simp : ((true : Bool) || latest) = true)] at hrec
        simpa only [List.drop_succ_cons, List.drop_zero] using hrec
    · rw [if_neg hc, matchesOf_cons_neg rest hc]
      exact ih b

/-! ### Pool-switch lemmas -/

theorem flipVal_flipVal (v : YVal) : flipVal (flipVal v) = v := by
  by_cases ha : v = some "a"
  · simp [flipVal, ha]
  · by_cases hb : v = some "b"
    · simp [flipVal, ha, hb]
    · simp [flipVal, ha, hb]

theorem switch_involutive (cfg : YamlDict) :
    switch_only_active_nodepools (switch_only_active_nodepools cfg) = cfg := by
  rw [switch_only_active_nodepools, switch_only_active_nodepools, List.map_map]
  have hid : ∀ p ∈ cfg,
      ((fun p : String × YVal =>
          if pyEndsWith p.1 NODE_POOL_ACTIVE_SUFFIX then (p.1, flipVal p.2) else p) ∘
        fun p : String × YVal =>
          if pyEndsWith p.1 NODE_POOL_ACTIVE_SUFFIX then (p.1, flipVal p.2) else p) p = p := by
    intro p _
    by_cases hs : pyEndsWith p.1 NODE_POOL_ACTIVE_SUFFIX = true
    · simp only [Function.comp, if_pos hs, flipVal_flipVal]
    · simp only [Function.comp, if_neg hs]
  rw [List.map_congr_left hid]
  simp

theorem findA_switch (cfg : YamlDict) (k : String) :
    findA (switch_only_active_nodepools cfg) k =
      match findA cfg k with
      | none => none
      | some v =>
        some (if pyEndsWith k NODE_POOL_ACTIVE_SUFFIX = true then flipVal v else v) := by
  induction cfg with
  | nil => rfl
  | cons p cfg ih =>
    rw [switch_only_active_nodepools, List.map_cons, ← switch_only_active_nodepools]
    by_cases hs : pyEndsWith p.1 NODE_POOL_ACTIVE_SUFFIX = true
    · rw [if_pos hs, findA_cons, findA_cons]
      by_cases hk : p.1 = k
      · rw [if_pos hk, if_pos hk, ← hk]
        simp [hs]
      · rw [if_neg hk, if_neg hk]
        exact ih
    · rw [if_neg hs, findA_cons, findA_cons]
      by_cases hk : p.1 = k
      · rw [if_pos hk, if_pos hk, ← hk]
        simp [hs]
      · rw [if_neg hk, if_neg hk]
        exact ih

theorem switch_keys (cfg : YamlDict) :
    (switch_only_active_nodepools cfg).map Prod.fst = cfg.map Prod.fst := by
  rw [switch_only_active_nodepools, List.map_map]
  apply List.map_congr_left
  intro p _
  by_cases hs : pyEndsWith p.1 NODE_POOL_ACTIVE_SUFFIX = true
  · simp only [Function.comp, if_pos hs]
  · simp only [Function.comp, if_neg hs]

/-! ### Reductions of the main workflow -/

theorem mainRun_image_path (ef v : String) (feed : List String) (cfg : YamlDict)
    (hef : ef ≠ "") (hv : v ≠ "") :
    mainRun ⟨ef, some v, none, false, false⟩ true feed cfg =
      finishUpgrade false (some v) cfg := by
  simp only [mainRun, truthy]
  rw [if_neg hef]
  rw [if_neg (by simp : ¬((true : Bool) = false))]
  rw [if_neg (by simp)]
  rw [if_neg (by simp)]
  rw [if_neg (by simp)]
  rw [if_neg (by simp)]
  rw [if_pos (by simp [hv])]

/-! ### Concrete documents used by the claim witnesses -/

/-- The scenario document of the specification (section 8): control plane
and slot A at 1.27.10, slot B behind, pool A active. -/
def cfgScenario : YamlDict :=
  [("KUBERNETES_VERSION", some "1.27.10-gke.x"),
   ("MAIN_NODE_POOL_ACTIVE", some "a"),
   ("MAIN_NODE_POOL_A_KUBERNETES_VERSION", some "1.27.10-gke.x"),
   ("MAIN_NODE_POOL_B_KUBERNETES_VERSION", some "1.27.8-gke.y")]

/-- `cfgScenario` after applying the exact version 1.27.11-gke.z: control
plane and the non-active slot B updated, slot A untouched. -/
def cfgScenarioAfter : YamlDict :=
  [("KUBERNETES_VERSION", some "1.27.11-gke.z"),
   ("MAIN_NODE_POOL_ACTIVE", some "a"),
   ("MAIN_NODE_POOL_A_KUBERNETES_VERSION", some "1.27.10-gke.x"),
   ("MAIN_NODE_POOL_B_KUBERNETES_VERSION", some "1.27.11-gke.z")]

/-- A document whose active flag stores the uppercase string "A" —
outside the documented "a"/"b" domain. -/
def cfgUpperFlag : YamlDict :=
  [("KUBERNETES_VERSION", some "1"),
   ("X_NODE_POOL_ACTIVE", some "A"),
   ("X_NODE_POOL_A_KUBERNETES_VERSION", some "0")]

/-- A document whose active flag stores the string "x" — neither "a" nor
"b". -/
def cfgOddFlag : YamlDict :=
  [("KUBERNETES_VERSION", some "1.0.0"),
   ("P_NODE_POOL_ACTIVE", some "x"),
   ("P_NODE_POOL_A_KUBERNETES_VERSION", some "1.0.0"),
   ("P_NODE_POOL_B_KUBERNETES_VERSION", some "1.0.0")]

/-- `cfgOddFlag` after applying 2.0.0: slot A (treated as non-active) is
overwritten, slot B is left alone. -/
def cfgOddFlagAfter : YamlDict :=
  [("KUBERNETES_VERSION", some "2.0.0"),
   ("P_NODE_POOL_ACTIVE", some "x"),
   ("P_NODE_POOL_A_KUBERNETES_VERSION", some "2.0.0"),
   ("P_NODE_POOL_B_KUBERNETES_VERSION", some "1.0.0")]

/-! ### The claims -/

/-- C1: the claim says a failed version resolution on the minor-family
(or default) path is fatal — clear error, non-zero exit, no mutation,
never a null version in the file.  The code violates this: `main` never
checks `latest_gke_version`'s None result, `update_gke_version_only`
compares every field against None, finds them different, writes None into
the control plane and the non-active slot, reports a change, and the
caller saves the file and exits 0.  This theorem evaluates the embedded
workflow at such an input: a feed with no 1.28 entry resolves to None and
the file is rewritten with null versions under exit code 0. -/
theorem mainRun_writes_null_on_resolution_failure :
    latest_gke_version ["GKE 1.27 <a href=\"u\">1.27.12-gke.1</a>"] "1.28" false = none ∧
    mainRun ⟨"env.yaml", none, some "1.28", false, false⟩ true
        ["GKE 1.27 <a href=\"u\">1.27.12-gke.1</a>"] cfgScenario =
      ⟨true, true,
        some [("KUBERNETES_VERSION", none),
              ("MAIN_NODE_POOL_ACTIVE", some "a"),
              ("MAIN_NODE_POOL_A_KUBERNETES_VERSION", some "1.27.10-gke.x"),
              ("MAIN_NODE_POOL_B_KUBERNETES_VERSION", none)], 0⟩ := by
  exact ⟨by decide, by decide⟩

/-- C2: with at least the required number of feed entries containing the
minor-version family, resolution returns the lexicographically greatest
family-matching link text of the deciding entry — the first matching
entry when the absolute-latest flag is set, the second matching entry by
default (tokens deduplicated and compared in plain string order). -/
theorem latest_gke_version_resolves_deciding_entry (feed : List String)
    (minor : String) (latest : Bool) (e v : String) (t : List String)
    (hdec : (if latest = true then (matchesOf feed minor).get? 0
             else (matchesOf feed minor).get? 1) = some e)
    (hfam : entryFamilyVersions minor e = v :: t) :
    latest_gke_version feed minor latest = some v ∧
      v ∈ findallAnchors e.data ∧ pyIn minor v = true ∧
      ∀ w ∈ findallAnchors e.data, pyIn minor w = true → w ≤ v := by
  have hprops := entryFamilyVersions_head hfam
  refine ⟨?_, hprops.1, hprops.2.1, hprops.2.2⟩
  rw [latest_gke_version]
  cases latest with
  | false =>
    rw [if_neg (by simp)] at hdec
    exact latestGo_second_match feed hdec hfam
  | true =>
    rw [if_pos rfl, List.get?_zero] at hdec
    exact latestGo_first_match feed false rfl hdec hfam

/-- C2 witness: the specification's scenario — minor family 1.27, default
semantics, two matching batches newest-first — resolves to the top of the
second batch. -/
theorem latest_gke_version_resolves_deciding_entry_witness :
    latest_gke_version
        ["n 1.27 <a href=\"u\">1.27.12-gke.a</a>",
         "n 1.27 <a href=\"v\">1.27.11-gke.b</a>"] "1.27" false =
      some "1.27.11-gke.b" :=
  (latest_gke_version_resolves_deciding_entry
    ["n 1.27 <a href=\"u\">1.27.12-gke.a</a>",
     "n 1.27 <a href=\"v\">1.27.11-gke.b</a>"] "1.27" false
    "n 1.27 <a href=\"v\">1.27.11-gke.b</a>" "1.27.11-gke.b" []
    (by decide) (by decide)).1

/-- C3 counterexample: the claim says that a deciding entry with no
family-matching version token makes resolution return None; in the code
the loop merely logs a warning and continues, so a later matching entry
can still produce a result.  Concretely, with the absolute-latest flag
the first matching entry "1.27 news" has no tokens at all, yet resolution
succeeds from the second entry. -/
theorem latest_gke_version_scans_past_tokenless_entry :
    pyIn "1.27" "1.27 news" = true ∧
    entryFamilyVersions "1.27" "1.27 news" = [] ∧
    latest_gke_version ["1.27 news", "w <a href=\"u\">1.27.5-gke.1</a>"]
        "1.27" true = some "1.27.5-gke.1" := by
  exact ⟨by decide, by decide, by decide⟩

/-- C3 amended: resolution returns None exactly when every matching entry
from the deciding one onward (all matching entries with the
absolute-latest flag, all but the first by default) lacks family-matching
version tokens; in particular it returns None whenever fewer than the
required number of matching entries exist, but a tokenless deciding entry
alone does not force None — scanning continues with later matching
entries. -/
theorem latest_gke_version_eq_none_iff (feed : List String) (minor : String)
    (latest : Bool) :
    latest_gke_version feed minor latest = none ↔
      ∀ e ∈ (if latest = true then matchesOf feed minor
             else (matchesOf feed minor).drop 1),
        entryFamilyVersions minor e = [] := by
  rw [latest_gke_version]
  have h := @latestGo_eq_none_iff minor latest feed false
  simpa only [Bool.false_or] using h

/-- C3 witness: a feed whose only matching entry is the skipped first one
resolves to None under the default semantics. -/
theorem latest_gke_version_eq_none_iff_witness :
    latest_gke_version ["n 1.27 <a href=\"u\">1.27.12-gke.a</a>"] "1.27" false =
      none :=
  (latest_gke_version_eq_none_iff
    ["n 1.27 <a href=\"u\">1.27.12-gke.a</a>"] "1.27" false).mpr (by decide)

/-- C4: applying a (string) target version to a document with the control
plane present and string active flags always succeeds; the control plane
ends at the target, every present non-active slot key ends at the target,
other fields are untouched, and the change flag is true exactly when the
control plane or some present non-active slot differed from the target;
on the exact-version CLI path the file is written precisely when the flag
is true, with exit code 0. -/
theorem update_gke_version_only_updates_iff_differs (cfg : YamlDict)
    (v : String) (cv : YVal)
    (hKV : findA cfg "KUBERNETES_VERSION" = some cv)
    (hact : ActFlagsStrings cfg) :
    update_gke_version_only cfg (some v) ≠ none ∧
    ∀ cfg' upd, update_gke_version_only cfg (some v) = some (cfg', upd) →
      findA cfg' "KUBERNETES_VERSION" = some (some v) ∧
      (∀ lp ∈ nonActiveOf cfg, ∀ w,
        findA cfg (poolVersionKey lp.1 lp.2) = some w →
        findA cfg' (poolVersionKey lp.1 lp.2) = some (some v)) ∧
      (∀ k, k ≠ "KUBERNETES_VERSION" →
        (∀ lp ∈ nonActiveOf cfg, poolVersionKey lp.1 lp.2 ≠ k) →
        findA cfg' k = findA cfg k) ∧
      upd = (decide ¬(cv = some v) ||
        (nonActiveOf cfg).any (poolChangeNeeded (some v) cfg)) ∧
      (∀ ef feed, ef ≠ "" → v ≠ "" →
        mainRun ⟨ef, some v, none, false, false⟩ true feed cfg =
          ⟨true, false, (if upd = true then some cfg' else none), 0⟩) := by
  obtain ⟨c', u', heq, h1, h2, h3, h4, h5, h6, h7, h8, h9⟩ :=
    update_spec cfg (some v) cv hKV hact
  constructor
  · rw [heq]
    simp
  · intro cfg' upd hupd
    rw [heq] at hupd
    cases hupd
    refine ⟨h1, h3, h2, h5, ?_⟩
    intro ef feed hef hv
    rw [mainRun_image_path ef v feed cfg hef hv]
    by_cases hu : u' = true
    · simp [finishUpgrade, heq, hu]
    · have hu' : u' = false := by simpa using hu
      simp [finishUpgrade, heq, hu']

/-- C4 witness: the specification's scenario — exact version 1.27.11-gke.z
applied to `cfgScenario` updates the control plane and slot B, leaves
slot A alone, reports a change, and the main workflow writes the file. -/
theorem update_gke_version_only_updates_iff_differs_witness :
    update_gke_version_only cfgScenario (some "1.27.11-gke.z") ≠ none ∧
    update_gke_version_only cfgScenario (some "1.27.11-gke.z") =
      some (cfgScenarioAfter, true) ∧
    mainRun ⟨"env.yaml", some "1.27.11-gke.z", none, false, false⟩ true []
        cfgScenario = ⟨true, false, some cfgScenarioAfter, 0⟩ :=
  ⟨(update_gke_version_only_updates_iff_differs cfgScenario "1.27.11-gke.z"
      (some "1.27.10-gke.x") (by decide) (by decide)).1,
   by decide, by decide⟩

/-- C5 counterexample: the claim says the active slot key is never
written, for every configuration.  With a stored active flag "A" the
code computes the non-active slot as "a" (the flag is not exactly "a"),
so the non-active slot key coincides with the active slot key
label + "_NODE_POOL_" + upper(active) + "_KUBERNETES_VERSION", and the
upgrade writes it. -/
theorem update_writes_active_slot_on_uppercase_flag :
    poolVersionKey "X" "A" = "X_NODE_POOL_A_KUBERNETES_VERSION" ∧
    findA cfgUpperFlag "X_NODE_POOL_A_KUBERNETES_VERSION" = some (some "0") ∧
    update_gke_version_only cfgUpperFlag (some "2") =
      some ([("KUBERNETES_VERSION", some "2"),
             ("X_NODE_POOL_ACTIVE", some "A"),
             ("X_NODE_POOL_A_KUBERNETES_VERSION", some "2")], true) := by
  exact ⟨by decide, by decide, by decide⟩

/-- C5 amended: the upgrade path mutates only the control-plane field and
per pool group the single non-active slot key
label + "_NODE_POOL_" + complement(active).upper() + "_KUBERNETES_VERSION";
an absent non-active slot key is never created (no key is added or
removed at all); every other field is unchanged; and PROVIDED every
stored active flag is exactly "a" or "b", the active slot key
label + "_NODE_POOL_" + active.upper() + "_KUBERNETES_VERSION" is never
written. -/
theorem update_frame_and_active_untouched (cfg : YamlDict) (newV cv : YVal)
    (hKV : findA cfg "KUBERNETES_VERSION" = some cv)
    (hact : ActFlagsStrings cfg) :
    ∃ cfg' upd, update_gke_version_only cfg newV = some (cfg', upd) ∧
      (∀ k, k ≠ "KUBERNETES_VERSION" →
        (∀ lp ∈ nonActiveOf cfg, poolVersionKey lp.1 lp.2 ≠ k) →
        findA cfg' k = findA cfg k) ∧
      cfg'.map Prod.fst = cfg.map Prod.fst ∧
      (∀ lp ∈ nonActiveOf cfg, findA cfg (poolVersionKey lp.1 lp.2) = none →
        findA cfg' (poolVersionKey lp.1 lp.2) = none) ∧
      ((∀ q ∈ get_active_pool_keys cfg, q.2 = some "a" ∨ q.2 = some "b") →
        ∀ label s, (label, some s) ∈ get_active_pool_keys cfg →
          findA cfg' (poolVersionKey label s) =
            findA cfg (poolVersionKey label s)) := by
  obtain ⟨c', u', heq, h1, h2, h3, h4, h5, h6, h7, h8, h9⟩ :=
    update_spec cfg newV cv hKV hact
  refine ⟨c', u', heq, h2, h6, h4, ?_⟩
  intro hab label s hmem
  have hs : s = "a" ∨ s = "b" := by
    rcases hab (label, some s) hmem with h | h
    · left
      simpa using h
    · right
      simpa using h
  apply h2
  · exact poolVersionKey_ne_KV label hs
  · intro lp hlp hkey
    obtain ⟨av, hmemA, hlp2⟩ := nonActive_mem_elim cfg lp hlp
    obtain ⟨hlab, hpool⟩ :=
      poolVersionKey_inj (nonActive_pool_ab cfg lp hlp) hs hkey
    have hfind1 : findA (get_active_pool_keys cfg) lp.1 = some av :=
      findA_of_mem_pairwise (gap_pairwise cfg) hmemA
    have hfind2 : findA (get_active_pool_keys cfg) label = some (some s) :=
      findA_of_mem_pairwise (gap_pairwise cfg) hmem
    rw [hlab] at hfind1
    rw [hfind1] at hfind2
    have hav : av = some s := Option.some.inj hfind2
    rw [hav] at hlp2
    rw [hpool] at hlp2
    rcases hs with hsv | hsv <;> rw [hsv] at hlp2 <;> simp at hlp2

/-- C5 witness: on the scenario document (flags in the "a"/"b" domain)
the upgrade leaves the active slot key and all unrelated fields alone. -/
theorem update_frame_and_active_untouched_witness :
    ∃ cfg' upd,
      update_gke_version_only cfgScenario (some "1.27.11-gke.z") =
        some (cfg', upd) ∧
      (∀ k, k ≠ "KUBERNETES_VERSION" →
        (∀ lp ∈ nonActiveOf cfgScenario, poolVersionKey lp.1 lp.2 ≠ k) →
        findA cfg' k = findA cfgScenario k) ∧
      cfg'.map Prod.fst = cfgScenario.map Prod.fst ∧
      (∀ lp ∈ nonActiveOf cfgScenario,
        findA cfgScenario (poolVersionKey lp.1 lp.2) = none →
        findA cfg' (poolVersionKey lp.1 lp.2) = none) ∧
      ((∀ q ∈ get_active_pool_keys cfgScenario,
          q.2 = some "a" ∨ q.2 = some "b") →
        ∀ label s, (label, some s) ∈ get_active_pool_keys cfgScenario →
          findA cfg' (poolVersionKey label s) =
            findA cfgScenario (poolVersionKey label s)) :=
  update_frame_and_active_untouched cfgScenario (some "1.27.11-gke.z")
    (some "1.27.10-gke.x") (by decide) (by decide)

/-- C6: applying the same string target twice is idempotent — after a
first apply, a second apply reports no change and returns the document
literally unchanged, and on the exact-version CLI path the caller then
does not write the file (exit 0, nothing saved). -/
theorem update_gke_version_only_idempotent (cfg : YamlDict) (v : String)
    (cv : YVal) (hKV : findA cfg "KUBERNETES_VERSION" = some cv)
    (hact : ActFlagsStrings cfg) (cfg' : YamlDict) (u' : Bool)
    (hfirst : update_gke_version_only cfg (some v) = some (cfg', u')) :
    update_gke_version_only cfg' (some v) = some (cfg', false) ∧
      ∀ ef feed, ef ≠ "" → v ≠ "" →
        mainRun ⟨ef, some v, none, false, false⟩ true feed cfg' =
          ⟨true, false, none, 0⟩ := by
  obtain ⟨c1, u1, heq, h1, h2, h3, h4, h5, h6, h7, h8, h9⟩ :=
    update_spec cfg (some v) cv hKV hact
  rw [heq] at hfirst
  cases hfirst
  have hact' : ActFlagsStrings cfg' := by
    intro p hp hsufp
    obtain ⟨q, hq, hqk, hqv⟩ := h7 p hp
    rcases hqv with hv | hv
    · rw [hv]
      exact hact q hq (by rw [← hqk]; exact hsufp)
    · rw [hv]
      simp
  obtain ⟨c2, u2, heq2, g1, g2, g3, g4, g5, g6, g7, g8, g9⟩ :=
    update_spec cfg' (some v) (some v) h1 hact'
  have hna : nonActiveOf cfg' = nonActiveOf cfg := by
    rw [nonActiveOf, nonActiveOf, h8]
  have hu2 : u2 = false := by
    rw [g5, hna]
    have hd : (decide ¬((some v : YVal) = some v)) = false := by simp
    rw [hd, Bool.false_or]
    apply List.any_eq_false.mpr
    intro lp hlp
    rw [poolChangeNeeded]
    rcases hc : findA cfg (poolVersionKey lp.1 lp.2) with - | w
    · rw [h4 lp hlp hc]
      simp
    · rw [h3 lp hlp w hc]
      simp
  have hc2 : c2 = cfg' := g9 hu2
  constructor
  · rw [heq2, hu2, hc2]
  · intro ef feed hef hv
    have heq2' : update_gke_version_only cfg' (some v) = some (cfg', false) := by
      rw [heq2, hu2, hc2]
    rw [mainRun_image_path ef v feed cfg' hef hv]
    simp [finishUpgrade, heq2']

/-- C6 witness: rerunning the scenario upgrade on the already-upgraded
document reports no change and leaves it untouched. -/
theorem update_gke_version_only_idempotent_witness :
    update_gke_version_only cfgScenarioAfter (some "1.27.11-gke.z") =
      some (cfgScenarioAfter, false) :=
  (update_gke_version_only_idempotent cfgScenario "1.27.11-gke.z"
    (some "1.27.10-gke.x") (by decide) (by decide) cfgScenarioAfter true
    (by decide)).1

/-- C7: the pool switch flips the value of every key ending in
`_NODE_POOL_ACTIVE` between "a" and "b", leaves any other stored value of
such keys unchanged, modifies no other key (and no key set), is an
involution, and the switch-only invocation always writes the file (exit
0) regardless of whether any value changed. -/
theorem switch_only_active_nodepools_spec (cfg : YamlDict) :
    switch_only_active_nodepools (switch_only_active_nodepools cfg) = cfg ∧
    (∀ k, pyEndsWith k NODE_POOL_ACTIVE_SUFFIX = true →
      (findA cfg k = some (some "a") →
        findA (switch_only_active_nodepools cfg) k = some (some "b")) ∧
      (findA cfg k = some (some "b") →
        findA (switch_only_active_nodepools cfg) k = some (some "a")) ∧
      (∀ w, findA cfg k = some w → w ≠ some "a" → w ≠ some "b" →
        findA (switch_only_active_nodepools cfg) k = some w)) ∧
    (∀ k, pyEndsWith k NODE_POOL_ACTIVE_SUFFIX = false →
      findA (switch_only_active_nodepools cfg) k = findA cfg k) ∧
    (switch_only_active_nodepools cfg).map Prod.fst = cfg.map Prod.fst ∧
    (∀ (args : Args) (feed : List String), args.switch_active_only = true →
      args.env_file ≠ "" →
      ¬(truthy args.minor = true ∧ minorPrefixOk (args.minor.getD "") = false) →
      mainRun args true feed cfg =
        ⟨true, false, some (switch_only_active_nodepools cfg), 0⟩) := by
  refine ⟨switch_involutive cfg, ?_, ?_, switch_keys cfg, ?_⟩
  · intro k hk
    refine ⟨?_, ?_, ?_⟩
    · intro h
      rw [findA_switch, h]
      simp [hk, flipVal]
    · intro h
      rw [findA_switch, h]
      simp [hk, flipVal]
    · intro w h hwa hwb
      rw [findA_switch, h]
      simp [hk, flipVal, hwa, hwb]
  · intro k hk
    rw [findA_switch]
    rcases h : findA cfg k with - | v
    · rfl
    · simp [hk]
  · intro args feed hsw hef hminor
    rw [mainRun, if_neg hef, if_neg (by simp : ¬((true : Bool) = false)),
      if_neg hminor, if_pos hsw]

/-- C7 witness: the switch applied twice to the scenario document gives
back the document. -/
theorem switch_only_active_nodepools_spec_witness :
    switch_only_active_nodepools (switch_only_active_nodepools cfgScenario) =
      cfgScenario :=
  (switch_only_active_nodepools_spec cfgScenario).1

/-- C8 counterexample: the claim says that supplying both the exact-image
flag and the minor flag fails before the configuration file is touched
(read or mutated).  In the code `load_yaml` runs before the conflict
check, so the file has already been read when the usage error (exit 2)
fires; moreover, with the switch-only flag also set the conflicting pair
is never even checked — the switch executes and the file is written with
exit code 0. -/
theorem mainRun_conflict_after_file_read :
    (mainRun ⟨"f", some "1.27.11-gke.3", some "1.27", false, false⟩ true []
        cfgScenario).fileRead = true ∧
    (mainRun ⟨"f", some "1.27.11-gke.3", some "1.27", false, false⟩ true []
        cfgScenario).exitCode = 2 ∧
    mainRun ⟨"f", some "1.27.11-gke.3", some "1.27", false, true⟩ true []
        cfgScenario =
      ⟨true, false, some (switch_only_active_nodepools cfgScenario), 0⟩ := by
  exact ⟨by decide, by decide, by decide⟩

/-- C8 amended: for every invocation supplying both a truthy exact-image
flag and a truthy minor flag WITHOUT the switch-only flag, the run exits
non-zero, never consults the version catalog and never writes the file
(the file may however already have been read when the conflict is
reported). -/
theorem mainRun_conflicting_flags_fail (args : Args) (fe : Bool)
    (feed : List String) (cfg : YamlDict)
    (himg : truthy args.image = true) (hmin : truthy args.minor = true)
    (hsw : args.switch_active_only = false) :
    (mainRun args fe feed cfg).exitCode ≠ 0 ∧
    (mainRun args fe feed cfg).catalogConsulted = false ∧
    (mainRun args fe feed cfg).written = none := by
  rw [mainRun]
  by_cases h1 : args.env_file = ""
  · rw [if_pos h1]
    exact ⟨by simp, rfl, rfl⟩
  · rw [if_neg h1]
    by_cases h2 : fe = false
    · rw [if_pos h2]
      exact ⟨by simp, rfl, rfl⟩
    · rw [if_neg h2]
      by_cases h3 : truthy args.minor = true ∧
          minorPrefixOk (args.minor.getD "") = false
      · rw [if_pos h3]
        exact ⟨by simp, rfl, rfl⟩
      · rw [if_neg h3]
        rw [if_neg (by rw [hsw]; simp : ¬(args.switch_active_only = true))]
        rw [if_pos (⟨himg, Or.inl hmin⟩ :
          truthy args.image = true ∧
            (truthy args.minor = true ∨ args.latest = true))]
        exact ⟨by simp, rfl, rfl⟩

/-- C8 witness: a concrete conflicting invocation exits non-zero. -/
theorem mainRun_conflicting_flags_fail_witness :
    (mainRun ⟨"f", some "1.27.11-gke.3", some "1.27", false, false⟩ true []
        cfgScenario).exitCode ≠ 0 :=
  (mainRun_conflicting_flags_fail
    ⟨"f", some "1.27.11-gke.3", some "1.27", false, false⟩ true [] cfgScenario
    (by decide) (by decide) rfl).1

/-- C9 counterexample: "1.27abc" does not match the exact digits.digits
shape, yet the tool does not fail with an invalid-input error —
`re.match` anchors only at the start, so validation passes and the
invocation proceeds (here all the way to writing a null version with exit
code 0, so a file mutation even occurs). -/
theorem mainRun_accepts_malformed_minor :
    minorExactShape "1.27abc" = false ∧
    minorPrefixOk "1.27abc" = true ∧
    mainRun ⟨"f", none, some "1.27abc", false, false⟩ true []
        [("KUBERNETES_VERSION", some "1.27.10-gke.1")] =
      ⟨true, true, some [("KUBERNETES_VERSION", none)], 0⟩ := by
  exact ⟨by decide, by decide, by decide⟩

/-- C9 amended: the tool fails with the invalid-format error — exit code
1, before the file is read, no catalog access, no write — exactly for a
supplied truthy minor flag that does not START with a digits.digits
prefix; a flag with trailing garbage after such a prefix passes the
validation. -/
theorem mainRun_rejects_minor_without_digit_dot_digit_start (args : Args)
    (feed : List String) (cfg : YamlDict) (hef : args.env_file ≠ "")
    (hmin : truthy args.minor = true)
    (hbad : minorPrefixOk (args.minor.getD "") = false) :
    mainRun args true feed cfg = ⟨false, false, none, 1⟩ := by
  rw [mainRun, if_neg hef, if_neg (by simp : ¬((true : Bool) = false)),
    if_pos ⟨hmin, hbad⟩]

/-- C9 witness: a minor flag "1.x" (no digits after the dot) is rejected
with exit code 1 before the file is read. -/
theorem mainRun_rejects_minor_without_digit_dot_digit_start_witness :
    mainRun ⟨"f", none, some "1.x", false, false⟩ true [] [] =
      ⟨false, false, none, 1⟩ :=
  mainRun_rejects_minor_without_digit_dot_digit_start
    ⟨"f", none, some "1.x", false, false⟩ [] [] (by decide) (by decide)
    (by decide)

/-- C10: the non-active slot of a pool group is computed as "b" exactly
when the stored active flag is the string "a" and as "a" for every other
stored value; hence for a group whose flag is some other string (for
example "x"), slot A is treated as non-active — its key is overwritten
with the target when present — while slot B is treated as active and left
unchanged. -/
theorem update_nonactive_complement_rule (cfg : YamlDict) (cv : YVal)
    (label s : String) (hKV : findA cfg "KUBERNETES_VERSION" = some cv)
    (hact : ActFlagsStrings cfg)
    (hmem : (label, some s) ∈ get_active_pool_keys cfg) (hs : s ≠ "a") :
    (label, "a") ∈ nonActiveOf cfg ∧
    ∀ (v : String) (cfg' : YamlDict) (upd : Bool),
      update_gke_version_only cfg (some v) = some (cfg', upd) →
      (∀ w, findA cfg (poolVersionKey label "a") = some w →
        findA cfg' (poolVersionKey label "a") = some (some v)) ∧
      findA cfg' (poolVersionKey label "b") =
        findA cfg (poolVersionKey label "b") := by
  have hmemNA : (label, "a") ∈ nonActiveOf cfg := by
    rw [nonActiveOf]
    exact List.mem_map.mpr ⟨(label, some s), hmem, by simp [hs]⟩
  refine ⟨hmemNA, ?_⟩
  intro v cfg' upd hupd
  obtain ⟨c', u', heq, h1, h2, h3, h4, h5, h6, h7, h8, h9⟩ :=
    update_spec cfg (some v) cv hKV hact
  rw [heq] at hupd
  cases hupd
  constructor
  · intro w hw
    exact h3 (label, "a") hmemNA w hw
  · apply h2
    · exact poolVersionKey_ne_KV label (Or.inr rfl)
    · intro lp hlp hkey
      obtain ⟨av, hmemA, hlp2⟩ := nonActive_mem_elim cfg lp hlp
      obtain ⟨hlab, hpool⟩ :=
        poolVersionKey_inj (nonActive_pool_ab cfg lp hlp) (Or.inr rfl) hkey
      have hfind1 : findA (get_active_pool_keys cfg) lp.1 = some av :=
        findA_of_mem_pairwise (gap_pairwise cfg) hmemA
      have hfind2 : findA (get_active_pool_keys cfg) label = some (some s) :=
        findA_of_mem_pairwise (gap_pairwise cfg) hmem
      rw [hlab] at hfind1
      rw [hfind1] at hfind2
      have hav : av = some s := Option.some.inj hfind2
      rw [hav, hpool] at hlp2
      simp [hs] at hlp2

/-- C10 witness: on the document with active flag "x", slot A is
overwritten with the target and slot B is left unchanged. -/
theorem update_nonactive_complement_rule_witness :
    ("P", "a") ∈ nonActiveOf cfgOddFlag ∧
    findA cfgOddFlagAfter (poolVersionKey "P" "a") = some (some "2.0.0") ∧
    findA cfgOddFlagAfter (poolVersionKey "P" "b") =
      findA cfgOddFlag (poolVersionKey "P" "b") := by
  have h := update_nonactive_complement_rule cfgOddFlag (some "1.0.0") "P" "x"
    (by decide) (by decide) (by decide) (by decide)
  have h2 := h.2 "2.0.0" cfgOddFlagAfter true (by decide)
  exact ⟨h.1, h2.1 (some "1.0.0") (by decide), h2.2⟩

end GkeTool
